import Mathlib

/-!
# Verification of the `armadillo` RFC 7539 primitives

Shallow embedding of the repository's ChaCha20 stream cipher
(`src/chacha/chacha20.rs`) and Poly1305 MAC (`src/poly/poly1305.rs`).

Conventions of the embedding:
* Rust `u32`/`u128` values are `Nat`s; wrap-around arithmetic is written with
  an explicit `% 2^32` (resp. bit masks), matching the `wrapping_add` calls
  and release-mode `+` semantics of the source.
* Byte strings (`&[u8]`, `Vec<u8>`) are `List Nat` with entries below 256.
* The one fallible spot of the source — `poly1305_mac`'s final
  `try_into().unwrap()` on the big-integer byte serialization — is modelled
  with `Option`: `none` is the panic.
-/

namespace Armadillo

/-- 32-bit wrap-around addition: Rust `u32::wrapping_add`. -/
def add32 (a b : Nat) : Nat := (a + b) % 2 ^ 32

/-- Circular left rotation of a 32-bit word: Rust `u32::rotate_left` (for
rotation amounts `0 < n < 32`, the only ones the source uses). -/
def rotl32 (x n : Nat) : Nat := ((x <<< n) ||| (x >>> (32 - n))) % 2 ^ 32

/-- `ChaCha20Block::quarter_round` from `src/chacha/chacha20.rs` (lines
85–107): read the four words at indices `x y z w` of the 16-word state,
apply the four ARX steps, and write them back in order. -/
def quarter_round (x y z w : Nat) (s : List Nat) : List Nat :=
  let a := s.getD x 0
  let b := s.getD y 0
  let c := s.getD z 0
  let d := s.getD w 0
  -- 1. a += b; d ^= a; d <<<= 16;
  let a := add32 a b
  let d := rotl32 (d ^^^ a) 16
  -- 2. c += d; b ^= c; b <<<= 12;
  let c := add32 c d
  let b := rotl32 (b ^^^ c) 12
  -- 3. a += b; d ^= a; d <<<= 8;
  let a := add32 a b
  let d := rotl32 (d ^^^ a) 8
  -- 4. c += d; b ^= c; b <<<= 7;
  let c := add32 c d
  let b := rotl32 (b ^^^ c) 7
  ((((s.set x a).set y b).set z c).set w d)

/-- One iteration of the loop body of `ChaCha20Block::block` (lines
127–136): the four column quarter-rounds followed by the four diagonal
quarter-rounds. -/
def doubleRound (s : List Nat) : List Nat :=
  quarter_round 3 4 9 14 <|
  quarter_round 2 7 8 13 <|
  quarter_round 1 6 11 12 <|
  quarter_round 0 5 10 15 <|
  quarter_round 3 7 11 15 <|
  quarter_round 2 6 10 14 <|
  quarter_round 1 5 9 13 <|
  quarter_round 0 4 8 12 s

/-- Read a byte string as little-endian 32-bit words, 4 bytes per word:
the `chunks_exact(4)` / `u32::from_le_bytes` loops of `ChaCha20Block::new`
(`chunks_exact` ignores a trailing remainder shorter than 4). -/
def bytesToWordsLE : List Nat → List Nat
  | b0 :: b1 :: b2 :: b3 :: rest =>
      (b0 + 2 ^ 8 * b1 + 2 ^ 16 * b2 + 2 ^ 24 * b3) :: bytesToWordsLE rest
  | _ => []

/-- `ChaCha20Block::new` (lines 44–68): the 16-word initial state — four
constants, eight little-endian key words, the counter, three little-endian
nonce words. -/
def initState (key nonce : List Nat) (counter : Nat) : List Nat :=
  [0x61707865, 0x3320646e, 0x79622d32, 0x6b206574]
    ++ bytesToWordsLE key ++ [counter] ++ bytesToWordsLE nonce

/-- `ChaCha20Block::block` (lines 123–142): save the state, run 10 double
rounds (80 quarter-rounds), then add the saved state word-by-word with
wrapping addition. -/
def block (s : List Nat) : List Nat :=
  List.zipWith add32 (doubleRound^[10] s) s

/-- Serialize one 32-bit word to 4 little-endian bytes: `u32::to_le_bytes`. -/
def wordToBytesLE (w : Nat) : List Nat :=
  [w % 2 ^ 8, w / 2 ^ 8 % 2 ^ 8, w / 2 ^ 16 % 2 ^ 8, w / 2 ^ 24 % 2 ^ 8]

/-- `ChaCha20Block::get_keystream` (lines 147–150) on a freshly constructed
block: run `block` on the initial state for `(key, nonce, counter)` and
serialize the 16 words little-endian into 64 bytes. -/
def get_keystream (key nonce : List Nat) (counter : Nat) : List Nat :=
  (block (initState key nonce counter)).flatMap wordToBytesLE

/-- The `ChaCha20` struct (lines 12–16): key, nonce and the running block
counter. -/
structure ChaCha20 where
  key : List Nat
  nonce : List Nat
  counter : Nat
  deriving DecidableEq, Repr

/-- `ChaCha20::new` (lines 172–174): the counter starts at 1. -/
def ChaCha20.new (key nonce : List Nat) : ChaCha20 :=
  { key := key, nonce := nonce, counter := 1 }

/-- `ChaCha20::encrypt` (lines 176–186): concatenate the keystream blocks
for counters `counter + i`, `i < ⌈len/64⌉`, XOR with the data (`zip`
truncates to the data's length), and advance the stored counter by the
number of blocks.  The `u32` additions `self.counter + i as u32` and
`self.counter += blocks as u32` wrap modulo `2^32` (release-mode Rust);
there is no error path.  Returns the ciphertext and the updated cipher. -/
def ChaCha20.encrypt (c : ChaCha20) (data : List Nat) : List Nat × ChaCha20 :=
  let blocks := (data.length + 64 - 1) / 64
  let keystream :=
    (List.range blocks).flatMap
      (fun i => get_keystream c.key c.nonce ((c.counter + i) % 2 ^ 32))
  (List.zipWith (fun x y => x ^^^ y) keystream data,
   { c with counter := (c.counter + blocks) % 2 ^ 32 })

/-- The keystream assembled by `ChaCha20.encrypt`, as its own function for
use in lemmas (`encrypt` unfolds to it by `rfl`). -/
def ksRange (key nonce : List Nat) (counter n : Nat) : List Nat :=
  (List.range n).flatMap
    (fun i => get_keystream key nonce ((counter + i) % 2 ^ 32))

/-! ## Poly1305 (`src/poly/poly1305.rs`) -/

/-- `poly1305_r_clamp` (lines 27–29). -/
def poly1305_r_clamp (r : Nat) : Nat :=
  r &&& 0x0ffffffc0ffffffc0ffffffc0fffffff

/-- Little-endian byte string to number: `BigUint::from_bytes_le` /
`u128::from_le_bytes`. -/
def leNum (bs : List Nat) : Nat := bs.foldr (fun b acc => b + 2 ^ 8 * acc) 0

/-- The Poly1305 prime `p = 2^130 - 5`. -/
def P1305 : Nat := 2 ^ 130 - 5

/-- The accumulator of `poly1305_mac` after the first `i` iterations of its
chunk loop (lines 61–68 of `src/poly/poly1305.rs`).  Iteration `i` (the
Rust loop's 1-based index) takes the slice
`data[((i-1)*16)..(i*16).min(len)]` — here `(data.drop (16*(i-1))).take 16`
— pushes a `0x01` byte, reads it little-endian, adds it to the accumulator
and multiplies by `r` mod `p`. -/
def polyAccum (r : Nat) (data : List Nat) : Nat → Nat
  | 0 => 0
  | i + 1 =>
      (r * (polyAccum r data i + leNum (((data.drop (16 * i)).take 16) ++ [1])))
        % P1305

/-- Little-endian base-256 digit expansion (auxiliary for
`bigUintToBytesLE`): divide by 256 until zero.  The first argument is
recursion fuel; every value serialized by `poly1305_mac` is below `2^128`
(it is masked), so fuel 17 is never exhausted on reachable inputs. -/
def natBytesLE (fuel : Nat) (n : Nat) : List Nat :=
  match fuel with
  | 0 => []
  | fuel + 1 => if n = 0 then [] else n % 2 ^ 8 :: natBytesLE fuel (n / 2 ^ 8)

/-- `BigUint::to_bytes_le`: the minimal little-endian byte representation,
except that zero is one `0x00` byte. -/
def bigUintToBytesLE (n : Nat) : List Nat :=
  if n = 0 then [0] else natBytesLE 17 n

/-- `poly1305_mac` (lines 47–74): clamp `r` from the first 16 key bytes,
read `s` from the last 16, run the chunk loop `⌈len/16⌉` times, add `s`,
mask to 128 bits, and serialize with `BigUint::to_bytes_le`.  The final
`try_into().unwrap()` into `[u8; 16]` panics unless that minimal
serialization is exactly 16 bytes long; `none` models the panic. -/
def poly1305_mac (key data : List Nat) : Option (List Nat) :=
  let r := poly1305_r_clamp (leNum (key.take 16))
  let s := leNum ((key.drop 16).take 16)
  let acc := polyAccum r data ((data.length + 15) / 16)
  let code := bigUintToBytesLE ((acc + s) &&& (2 ^ 128 - 1))
  if code.length = 16 then some code else none

/-! ## Spec-side models

Second transcriptions, written from the words of the specification (not
from the Rust), used to state the refinement claims. -/

/-- The quarter-round contract of spec §4.1, literally: the four steps on
the word quadruple `(a, b, c, d)`, returned as a tuple. -/
def qrSpec (a b c d : Nat) : Nat × Nat × Nat × Nat :=
  let a1 := add32 a b
  let d1 := rotl32 (d ^^^ a1) 16
  let c1 := add32 c d1
  let b1 := rotl32 (b ^^^ c1) 12
  let a2 := add32 a1 b1
  let d2 := rotl32 (d1 ^^^ a2) 8
  let c2 := add32 c1 d2
  let b2 := rotl32 (b1 ^^^ c2) 7
  (a2, b2, c2, d2)

/-- Spec §4.1's quarter round applied to four word slots of the state,
"taken from the state by index". -/
def qrSpecAt (x y z w : Nat) (s : List Nat) : List Nat :=
  let r := qrSpec (s.getD x 0) (s.getD y 0) (s.getD z 0) (s.getD w 0)
  ((((s.set x r.1).set y r.2.1).set z r.2.2.1).set w r.2.2.2)

/-- Spec §4.2 step 3: the 4 column quarter-rounds over
(0,4,8,12), (1,5,9,13), (2,6,10,14), (3,7,11,15). -/
def columnRound (s : List Nat) : List Nat :=
  qrSpecAt 3 7 11 15 (qrSpecAt 2 6 10 14 (qrSpecAt 1 5 9 13 (qrSpecAt 0 4 8 12 s)))

/-- Spec §4.2 step 3: the 4 diagonal quarter-rounds over
(0,5,10,15), (1,6,11,12), (2,7,8,13), (3,4,9,14). -/
def diagonalRound (s : List Nat) : List Nat :=
  qrSpecAt 3 4 9 14 (qrSpecAt 2 7 8 13 (qrSpecAt 1 6 11 12 (qrSpecAt 0 5 10 15 s)))

/-- The block transform of spec §4.2 / §3: build the 16-word state (four
constants, key as eight little-endian words, counter, nonce as three
little-endian words), save it, apply 10 double rounds (each: column rounds
then diagonal rounds), add the saved state word-by-word with wraparound
addition, and serialize all 16 words little-endian into 64 bytes. -/
def chacha20_block_spec (key nonce : List Nat) (counter : Nat) : List Nat :=
  let init :=
    [0x61707865, 0x3320646e, 0x79622d32, 0x6b206574]
      ++ (List.range 8).map (fun i => leNum ((key.drop (4 * i)).take 4))
      ++ [counter]
      ++ (List.range 3).map (fun i => leNum ((nonce.drop (4 * i)).take 4))
  let final := (fun s => diagonalRound (columnRound s))^[10] init
  (List.zipWith add32 final init).flatMap
    (fun w => (List.range 4).map (fun i => w / 2 ^ (8 * i) % 2 ^ 8))

/-- Spec §4.5 step 5 / §6: a number serialized as exactly 16 little-endian
bytes (`num_to_16_le_bytes`). -/
def num_to_16_le_bytes (n : Nat) : List Nat :=
  (List.range 16).map (fun i => n / 2 ^ (8 * i) % 2 ^ 8)

/-- The Poly1305 MAC of spec §4.5, literally: clamp `R`, read `S`, fold the
16-byte chunks (final chunk may be shorter) with
`acc := (acc + N) * R mod P`, then emit `(acc + S) mod 2^128` as 16
little-endian bytes. -/
def poly1305_mac_spec (key data : List Nat) : List Nat :=
  let r := leNum (key.take 16) &&& 0x0ffffffc0ffffffc0ffffffc0fffffff
  let s := leNum ((key.drop 16).take 16)
  let chunks := (List.range ((data.length + 15) / 16)).map
    (fun i => (data.drop (16 * i)).take 16)
  let acc := chunks.foldl (fun acc chunk => ((acc + leNum (chunk ++ [1])) * r) % P1305) 0
  num_to_16_le_bytes ((acc + s) % 2 ^ 128)

/-! ## Concrete inputs used by counterexamples and witnesses -/

/-- The all-zero 32-byte key. -/
def zeroKey : List Nat := List.replicate 32 0

/-- The all-zero 12-byte nonce. -/
def zeroNonce : List Nat := List.replicate 12 0

/-- A cipher whose counter sits at the top of the 32-bit range, as reached
after encrypting `2^32 - 2` blocks on a fresh instance. -/
def overflowCipher : ChaCha20 :=
  { key := zeroKey, nonce := zeroNonce, counter := 2 ^ 32 - 1 }

/-! ## Helper lemmas -/

lemma getD_set_ne (l : List Nat) {i j : Nat} (h : i ≠ j) (v : Nat) :
    (l.set i v).getD j 0 = l.getD j 0 := by
  simp [List.getD_eq_getElem?_getD, List.getElem?_set_ne h]

lemma getD_set_self (l : List Nat) {i : Nat} (h : i < l.length) (v : Nat) :
    (l.set i v).getD i 0 = v := by
  simp [List.getD_eq_getElem?_getD, List.getElem?_set_self h]

/-- C7: the quarter-round reads the words at the four (distinct, in-range)
indices, applies the four ARX steps of the spec contract (transcribed in
`qrSpec`), writes the results back at those indices, and leaves every
other state word untouched; the state's length is preserved. -/
theorem quarter_round_contract (s : List Nat) (x y z w : Nat)
    (hx : x < s.length) (hy : y < s.length) (hz : z < s.length) (hw : w < s.length)
    (hxy : x ≠ y) (hxz : x ≠ z) (hxw : x ≠ w)
    (hyz : y ≠ z) (hyw : y ≠ w) (hzw : z ≠ w) :
    (quarter_round x y z w s).getD x 0
        = (qrSpec (s.getD x 0) (s.getD y 0) (s.getD z 0) (s.getD w 0)).1
    ∧ (quarter_round x y z w s).getD y 0
        = (qrSpec (s.getD x 0) (s.getD y 0) (s.getD z 0) (s.getD w 0)).2.1
    ∧ (quarter_round x y z w s).getD z 0
        = (qrSpec (s.getD x 0) (s.getD y 0) (s.getD z 0) (s.getD w 0)).2.2.1
    ∧ (quarter_round x y z w s).getD w 0
        = (qrSpec (s.getD x 0) (s.getD y 0) (s.getD z 0) (s.getD w 0)).2.2.2
    ∧ (∀ i, i ≠ x → i ≠ y → i ≠ z → i ≠ w →
        (quarter_round x y z w s).getD i 0 = s.getD i 0)
    ∧ (quarter_round x y z w s).length = s.length := by
  refine ⟨?_, ?_, ?_, ?_, ?_, ?_⟩
  · rw [quarter_round, getD_set_ne _ (Ne.symm hxw), getD_set_ne _ (Ne.symm hxz),
      getD_set_ne _ (Ne.symm hxy), getD_set_self _ (by simpa using hx)]
    simp [qrSpec]
  · rw [quarter_round, getD_set_ne _ (Ne.symm hyw), getD_set_ne _ (Ne.symm hyz),
      getD_set_self _ (by simpa using hy)]
    simp [qrSpec]
  · rw [quarter_round, getD_set_ne _ (Ne.symm hzw),
      getD_set_self _ (by simpa using hz)]
    simp [qrSpec]
  · rw [quarter_round, getD_set_self _ (by simpa using hw)]
    simp [qrSpec]
  · intro i hix hiy hiz hiw
    rw [quarter_round, getD_set_ne _ (Ne.symm hiw), getD_set_ne _ (Ne.symm hiz),
      getD_set_ne _ (Ne.symm hiy), getD_set_ne _ (Ne.symm hix)]
  · simp [quarter_round]

/-- C7 witness: the contract instantiated on the state words 0, 4, 8, 12 of
a concrete 16-word state, with the values and the frame condition at
index 1 evaluated to literals. -/
theorem quarter_round_contract_witness :
    (quarter_round 0 4 8 12 (List.range 16)).getD 0 0 = 2147532804
    ∧ (quarter_round 0 4 8 12 (List.range 16)).getD 1 0 = 1 := by
  have h := quarter_round_contract (List.range 16) 0 4 8 12
    (by decide) (by decide) (by decide) (by decide)
    (by decide) (by decide) (by decide) (by decide) (by decide) (by decide)
  exact ⟨h.1.trans (by decide),
    (h.2.2.2.2.1 1 (by decide) (by decide) (by decide) (by decide)).trans (by decide)⟩

/-! ### Length bookkeeping -/

lemma length_bytesToWordsLE : ∀ l : List Nat, (bytesToWordsLE l).length = l.length / 4
  | [] => rfl
  | [_] => by simp [bytesToWordsLE]
  | [_, _] => by simp [bytesToWordsLE]
  | [_, _, _] => by simp [bytesToWordsLE]
  | _ :: _ :: _ :: _ :: rest => by
      rw [bytesToWordsLE]
      simp only [List.length_cons, length_bytesToWordsLE rest]
      omega

lemma length_initState (key nonce : List Nat) (counter : Nat)
    (hk : key.length = 32) (hn : nonce.length = 12) :
    (initState key nonce counter).length = 16 := by
  simp [initState, length_bytesToWordsLE, hk, hn]

lemma length_quarter_round (x y z w : Nat) (s : List Nat) :
    (quarter_round x y z w s).length = s.length := by
  simp [quarter_round]

lemma length_doubleRound (s : List Nat) : (doubleRound s).length = s.length := by
  simp [doubleRound, length_quarter_round]

lemma length_doubleRound_iterate (n : Nat) (s : List Nat) :
    (doubleRound^[n] s).length = s.length := by
  induction n with
  | zero => rfl
  | succ n ih => rw [Function.iterate_succ_apply', length_doubleRound, ih]

lemma length_block (s : List Nat) : (block s).length = s.length := by
  rw [block, List.length_zipWith, length_doubleRound_iterate, Nat.min_self]

lemma length_flatMap_wordToBytesLE :
    ∀ ws : List Nat, (ws.flatMap wordToBytesLE).length = 4 * ws.length
  | [] => rfl
  | w :: ws => by
      simp only [List.flatMap_cons, List.length_append,
        length_flatMap_wordToBytesLE ws, wordToBytesLE, List.length_cons,
        List.length_nil]
      omega

lemma length_get_keystream (key nonce : List Nat) (counter : Nat)
    (hk : key.length = 32) (hn : nonce.length = 12) :
    (get_keystream key nonce counter).length = 64 := by
  rw [get_keystream, length_flatMap_wordToBytesLE, length_block,
    length_initState key nonce counter hk hn]

lemma encrypt_eq (c : ChaCha20) (data : List Nat) :
    c.encrypt data =
      (List.zipWith (fun x y => x ^^^ y)
        (ksRange c.key c.nonce c.counter ((data.length + 64 - 1) / 64)) data,
       { c with counter := (c.counter + (data.length + 64 - 1) / 64) % 2 ^ 32 }) :=
  rfl

lemma length_ksRange (key nonce : List Nat) (counter n : Nat)
    (hk : key.length = 32) (hn : nonce.length = 12) :
    (ksRange key nonce counter n).length = 64 * n := by
  induction n generalizing counter with
  | zero => rfl
  | succ n ih =>
      rw [ksRange, List.range_succ, List.flatMap_append]
      simp only [List.flatMap_cons, List.flatMap_nil, List.length_append]
      rw [show ((List.range n).flatMap
            (fun i => get_keystream key nonce ((counter + i) % 2 ^ 32))) =
          ksRange key nonce counter n from rfl, ih counter]
      simp [length_get_keystream key nonce _ hk hn]
      omega

/-- C9: for a cipher with a well-formed key and nonce, the ciphertext
returned by `ChaCha20.encrypt` has exactly the length of the input data. -/
theorem encrypt_length_preservation (c : ChaCha20) (data : List Nat)
    (hk : c.key.length = 32) (hn : c.nonce.length = 12) :
    ((c.encrypt data).1).length = data.length := by
  rw [encrypt_eq]
  simp only [List.length_zipWith, length_ksRange _ _ _ _ hk hn]
  omega

/-- C9 witness: length preservation evaluated on a fresh all-zero cipher
and a 5-byte message. -/
theorem encrypt_length_preservation_witness :
    (((ChaCha20.new zeroKey zeroNonce).encrypt [1, 2, 3, 4, 5]).1).length = 5 :=
  encrypt_length_preservation (ChaCha20.new zeroKey zeroNonce) [1, 2, 3, 4, 5]
    (by decide) (by decide)

lemma encrypt_fst (c : ChaCha20) (data : List Nat) :
    (c.encrypt data).1 =
      List.zipWith (fun x y => x ^^^ y)
        (ksRange c.key c.nonce c.counter ((data.length + 64 - 1) / 64)) data :=
  rfl

lemma encrypt_snd (c : ChaCha20) (data : List Nat) :
    (c.encrypt data).2 =
      { c with counter := (c.counter + (data.length + 64 - 1) / 64) % 2 ^ 32 } :=
  rfl

lemma zipWith_xor_cancel : ∀ a b : List Nat,
    List.zipWith (fun x y => x ^^^ y) a (List.zipWith (fun x y => x ^^^ y) a b)
      = b.take a.length
  | [], _ => rfl
  | _ :: _, [] => rfl
  | x :: a, y :: b => by
      simp only [List.zipWith_cons_cons, List.length_cons, List.take_succ_cons,
        zipWith_xor_cancel a b, Nat.xor_cancel_left]

/-- C8: XOR-encrypting twice with two fresh cipher instances carrying the
same key and nonce (hence the same initial counter 1) returns the original
message, for messages of every length — in particular the lengths 0, 1,
63, 64, 65 and 1000 named by the specification. -/
theorem encrypt_roundtrip (key nonce data : List Nat)
    (hk : key.length = 32) (hn : nonce.length = 12) :
    ((ChaCha20.new key nonce).encrypt
        (((ChaCha20.new key nonce).encrypt data).1)).1 = data := by
  rw [encrypt_fst, encrypt_fst]
  simp only [ChaCha20.new]
  have hlen : (List.zipWith (fun x y => x ^^^ y)
      (ksRange key nonce 1 ((data.length + 64 - 1) / 64)) data).length
      = data.length := by
    rw [List.length_zipWith, length_ksRange _ _ _ _ hk hn]
    omega
  rw [hlen, zipWith_xor_cancel, length_ksRange _ _ _ _ hk hn,
    List.take_of_length_le (by omega)]

/-- C8 witness: the round-trip at the all-zero key and nonce on the
message `[1, 2, 3]`. -/
theorem encrypt_roundtrip_witness :
    ((ChaCha20.new zeroKey zeroNonce).encrypt
        (((ChaCha20.new zeroKey zeroNonce).encrypt [1, 2, 3]).1)).1 = [1, 2, 3] :=
  encrypt_roundtrip zeroKey zeroNonce [1, 2, 3] (by decide) (by decide)

/-! ### Splitting the keystream across calls -/

lemma ksRange_append (key nonce : List Nat) (counter m n : Nat) :
    ksRange key nonce counter (m + n)
      = ksRange key nonce counter m
        ++ ksRange key nonce ((counter + m) % 2 ^ 32) n := by
  rw [ksRange, List.range_add, List.flatMap_append, List.flatMap_map]
  have harg : (fun i => get_keystream key nonce ((counter + (m + i)) % 2 ^ 32))
      = fun i => get_keystream key nonce (((counter + m) % 2 ^ 32 + i) % 2 ^ 32) := by
    funext i
    rw [Nat.mod_add_mod, Nat.add_assoc]
  rw [show ((List.range n).flatMap fun i =>
        get_keystream key nonce ((counter + (m + i)) % 2 ^ 32))
      = (List.range n).flatMap fun i =>
        get_keystream key nonce (((counter + m) % 2 ^ 32 + i) % 2 ^ 32) from by
    rw [harg]]
  rfl

lemma ksRange_one (key nonce : List Nat) (counter : Nat) :
    ksRange key nonce counter 1 = get_keystream key nonce (counter % 2 ^ 32) := by
  simp [ksRange, List.range_succ]

/-- C10: a fresh `ChaCha20` always starts with block counter 1 (the
constructor takes no counter argument), so the first 64-byte chunk of the
first `encrypt` call is XORed with the keystream block for counter 1. -/
theorem new_counter_one (key nonce data : List Nat)
    (hk : key.length = 32) (hn : nonce.length = 12) :
    (ChaCha20.new key nonce).counter = 1
    ∧ (((ChaCha20.new key nonce).encrypt data).1).take 64
      = List.zipWith (fun x y => x ^^^ y) (get_keystream key nonce 1)
          (data.take 64) := by
  refine ⟨rfl, ?_⟩
  rw [encrypt_fst]
  simp only [ChaCha20.new]
  cases data with
  | nil => simp
  | cons b rest =>
      have hB : ((b :: rest).length + 64 - 1) / 64
          = 1 + (((b :: rest).length + 64 - 1) / 64 - 1) := by
        simp only [List.length_cons]
        omega
      rw [hB, ksRange_append, ksRange_one, List.take_zipWith,
        List.take_left' (by norm_num [length_get_keystream key nonce _ hk hn]),
        show (1 : Nat) % 2 ^ 32 = 1 from by norm_num]

/-- C10 witness: the instantiation at the all-zero key/nonce and the
one-byte message `[7]`. -/
theorem new_counter_one_witness :
    (ChaCha20.new zeroKey zeroNonce).counter = 1
    ∧ (((ChaCha20.new zeroKey zeroNonce).encrypt [7]).1).take 64
      = List.zipWith (fun x y => x ^^^ y) (get_keystream zeroKey zeroNonce 1)
          ([7].take 64) :=
  new_counter_one zeroKey zeroNonce [7] (by decide) (by decide)

/-- C1 (amended): sequential-call equivalence holds for split points that
are multiples of 64 (whole-block splits) and for the trivial split at the
end of the message.  The counter continues across calls, so the second
call resumes the keystream exactly where the first stopped. -/
theorem encrypt_split_equivalence (key nonce data : List Nat) (k : Nat)
    (hk : key.length = 32) (hn : nonce.length = 12)
    (hkle : k ≤ data.length) (hsplit : 64 ∣ k ∨ k = data.length) :
    ((ChaCha20.new key nonce).encrypt (data.take k)).1
      ++ ((((ChaCha20.new key nonce).encrypt (data.take k)).2).encrypt
          (data.drop k)).1
    = ((ChaCha20.new key nonce).encrypt data).1 := by
  rcases hsplit with ⟨q, rfl⟩ | rfl
  · rw [encrypt_fst, encrypt_fst, encrypt_snd, encrypt_fst]
    simp only [ChaCha20.new, List.length_take, List.length_drop]
    have hmin : min (64 * q) data.length = 64 * q := Nat.min_eq_left hkle
    rw [hmin]
    have hq : (64 * q + 64 - 1) / 64 = q := by omega
    rw [hq]
    have hB : (data.length + 64 - 1) / 64
        = q + (data.length - 64 * q + 64 - 1) / 64 := by omega
    rw [hB, ksRange_append]
    set B2 := (data.length - 64 * q + 64 - 1) / 64 with hB2
    conv_rhs => rw [← List.take_append_drop (64 * q) data]
    rw [List.zipWith_append _ _ _ _ _
      (by rw [length_ksRange _ _ _ _ hk hn, List.length_take, hmin])]
  · rw [List.take_length, List.drop_length, encrypt_fst _ []]
    simp

/-- C1 witness for the amended theorem: a 65-byte message split at the
64-byte block boundary. -/
theorem encrypt_split_equivalence_witness :
    ((ChaCha20.new zeroKey zeroNonce).encrypt ((List.replicate 65 3).take 64)).1
      ++ ((((ChaCha20.new zeroKey zeroNonce).encrypt
            ((List.replicate 65 3).take 64)).2).encrypt
          ((List.replicate 65 3).drop 64)).1
    = ((ChaCha20.new zeroKey zeroNonce).encrypt (List.replicate 65 3)).1 :=
  encrypt_split_equivalence zeroKey zeroNonce (List.replicate 65 3) 64
    (by decide) (by decide) (by simp) (Or.inl ⟨1, rfl⟩)

set_option maxRecDepth 10000 in
/-- C1 counterexample to the claim as stated ("for any split point"): with
the all-zero key and nonce and the two-byte message `[0, 0]`, splitting at
`k = 1` gives a different ciphertext than a single call, because the
second call restarts at a fresh keystream block (the unused 63 bytes of
block 1 are discarded) while the single call uses bytes 0 and 1 of
block 1. -/
theorem encrypt_split_counterexample :
    ¬ (((ChaCha20.new zeroKey zeroNonce).encrypt ([0, 0].take 1)).1
        ++ ((((ChaCha20.new zeroKey zeroNonce).encrypt ([0, 0].take 1)).2).encrypt
            ([0, 0].drop 1)).1
      = ((ChaCha20.new zeroKey zeroNonce).encrypt [0, 0]).1) := by
  decide

set_option maxRecDepth 10000 in
/-- C2: `ChaCha20::encrypt` has no error path.  Encrypting 128 bytes with
the counter at `2^32 - 1` silently wraps the counter around to 1, returns
a full 128-byte ciphertext, and the second chunk is XORed with the
keystream block for counter 0 — the wraparound keystream the spec says
must never be produced.  (In a debug build the unchecked `u32` addition
would panic instead; in neither build is a typed `CounterOverflow` error
returned.) -/
theorem encrypt_counter_overflow_wraps :
    ((overflowCipher.encrypt (List.replicate 128 0)).2).counter = 1
    ∧ ((overflowCipher.encrypt (List.replicate 128 0)).1).length = 128
    ∧ ((overflowCipher.encrypt (List.replicate 128 0)).1).drop 64
      = get_keystream zeroKey zeroNonce 0 := by
  refine ⟨by decide, ?_, by decide⟩
  exact encrypt_length_preservation overflowCipher (List.replicate 128 0)
    (by decide) (by decide)

/-- C3: `poly1305_mac` is not total.  On the all-zero key and the one-byte
message `[0x00]` the tag value is 0, `BigUint::to_bytes_le` yields the
single byte `[0x00]`, and the `try_into::<[u8; 16]>().unwrap()` panics
(modelled as `none`). -/
theorem poly1305_mac_panics_on_zero_key :
    poly1305_mac zeroKey [0] = none := by decide

/-- C4: on an empty message the tag should be `S` verbatim, but for the
all-zero key (`S = 0`) the code panics in the final serialization instead
of returning the 16 zero bytes (modelled as `none`). -/
theorem poly1305_mac_empty_message_panics :
    poly1305_mac zeroKey [] = none := by decide

/-- C5: the code does not equal the reference fold on every input: at the
all-zero key and message `[1, 2, 3]` the reference fold of the spec yields
the 16-zero-byte tag while the code panics in the final serialization
(modelled as `none`), because `BigUint::to_bytes_le` emits the minimal
byte string rather than `num_to_16_le_bytes`. -/
theorem poly1305_mac_differs_from_spec_fold :
    poly1305_mac zeroKey [1, 2, 3] = none
    ∧ poly1305_mac_spec zeroKey [1, 2, 3] = List.replicate 16 0 := by
  constructor <;> decide

/-! ### The block transform against its spec description (C6) -/

lemma bytesToWordsLE_eq_map : ∀ l : List Nat,
    bytesToWordsLE l
      = (List.range (l.length / 4)).map (fun i => leNum ((l.drop (4 * i)).take 4))
  | [] => rfl
  | [_] => by simp [bytesToWordsLE]
  | [_, _] => by simp [bytesToWordsLE]
  | [_, _, _] => by simp [bytesToWordsLE]
  | b0 :: b1 :: b2 :: b3 :: rest => by
      rw [bytesToWordsLE]
      have hlen : (b0 :: b1 :: b2 :: b3 :: rest).length / 4 = 1 + rest.length / 4 := by
        simp only [List.length_cons]
        omega
      rw [hlen, List.range_add, List.map_append, List.map_map]
      have hhead : (List.range 1).map
          (fun i => leNum (((b0 :: b1 :: b2 :: b3 :: rest).drop (4 * i)).take 4))
          = [b0 + 2 ^ 8 * b1 + 2 ^ 16 * b2 + 2 ^ 24 * b3] := by
        have h1 : List.range 1 = [0] := rfl
        rw [h1, List.map_cons, List.map_nil]
        simp only [Nat.mul_zero, List.drop_zero, List.take_succ_cons,
          List.take_zero, leNum, List.foldr_cons, List.foldr_nil]
        norm_num
        ring
      have htail : (fun i => leNum (((b0 :: b1 :: b2 :: b3 :: rest).drop (4 * i)).take 4))
            ∘ (fun x => 1 + x)
          = fun i => leNum ((rest.drop (4 * i)).take 4) := by
        funext i
        have h4 : 4 * (1 + i) = 4 * i + 1 + 1 + 1 + 1 := by ring
        simp only [Function.comp_apply, h4, List.drop_succ_cons]
      rw [hhead, htail, bytesToWordsLE_eq_map rest]
      rfl

lemma quarter_round_eq_qrSpecAt (x y z w : Nat) (s : List Nat) :
    quarter_round x y z w s = qrSpecAt x y z w s := rfl

lemma doubleRound_eq_spec :
    doubleRound = fun s => diagonalRound (columnRound s) := by
  funext s
  rw [doubleRound, columnRound, diagonalRound]
  simp only [quarter_round_eq_qrSpecAt]

lemma wordToBytesLE_eq_map :
    wordToBytesLE = fun w => (List.range 4).map (fun i => w / 2 ^ (8 * i) % 2 ^ 8) := by
  funext w
  have h4 : List.range 4 = [0, 1, 2, 3] := rfl
  rw [h4, wordToBytesLE]
  norm_num

/-- C6: the code's keystream-block computation (`ChaCha20Block::new` +
`block` + `get_keystream`) equals, for every 32-byte key, 12-byte nonce
and counter, the spec's description: constants/key/counter/nonce state,
10 column-then-diagonal double rounds, word-wise wraparound feed-forward
of the saved state, little-endian serialization to 64 bytes. -/
theorem keystream_refines_spec (key nonce : List Nat) (counter : Nat)
    (hk : key.length = 32) (hn : nonce.length = 12) :
    get_keystream key nonce counter = chacha20_block_spec key nonce counter := by
  have hinit : initState key nonce counter
      = [0x61707865, 0x3320646e, 0x79622d32, 0x6b206574]
          ++ (List.range 8).map (fun i => leNum ((key.drop (4 * i)).take 4))
          ++ [counter]
          ++ (List.range 3).map (fun i => leNum ((nonce.drop (4 * i)).take 4)) := by
    rw [initState, bytesToWordsLE_eq_map key, bytesToWordsLE_eq_map nonce, hk, hn]
  rw [get_keystream, chacha20_block_spec]
  rw [← hinit, ← doubleRound_eq_spec, ← wordToBytesLE_eq_map, block]

/-- C6 witness: the refinement instantiated at the RFC 7539 test key and
nonce with counter 1 (the vector of `src/tests/chacha.rs`). -/
theorem keystream_refines_spec_witness :
    get_keystream
        [0x00, 0x01, 0x02, 0x03, 0x04, 0x05, 0x06, 0x07,
         0x08, 0x09, 0x0a, 0x0b, 0x0c, 0x0d, 0x0e, 0x0f,
         0x10, 0x11, 0x12, 0x13, 0x14, 0x15, 0x16, 0x17,
         0x18, 0x19, 0x1a, 0x1b, 0x1c, 0x1d, 0x1e, 0x1f]
        [0x00, 0x00, 0x00, 0x09, 0x00, 0x00, 0x00, 0x4a, 0x00, 0x00, 0x00, 0x00] 1
      = chacha20_block_spec
        [0x00, 0x01, 0x02, 0x03, 0x04, 0x05, 0x06, 0x07,
         0x08, 0x09, 0x0a, 0x0b, 0x0c, 0x0d, 0x0e, 0x0f,
         0x10, 0x11, 0x12, 0x13, 0x14, 0x15, 0x16, 0x17,
         0x18, 0x19, 0x1a, 0x1b, 0x1c, 0x1d, 0x1e, 0x1f]
        [0x00, 0x00, 0x00, 0x09, 0x00, 0x00, 0x00, 0x4a, 0x00, 0x00, 0x00, 0x00] 1 :=
  keystream_refines_spec _ _ 1 (by decide) (by decide)

/-! ### Supporting analysis: the serialization slip is Poly1305's only
divergence from the spec fold -/

lemma polyAccum_eq_foldl (r : Nat) (data : List Nat) : ∀ B : Nat,
    polyAccum r data B
      = ((List.range B).map (fun i => (data.drop (16 * i)).take 16)).foldl
          (fun acc chunk => ((acc + leNum (chunk ++ [1])) * r) % P1305) 0
  | 0 => rfl
  | B + 1 => by
      rw [polyAccum, List.range_succ, List.map_append, List.foldl_append,
        ← polyAccum_eq_foldl r data B]
      simp [Nat.mul_comm]

lemma natBytesLE_of_bounds : ∀ (k n fuel : Nat),
    2 ^ (8 * k) ≤ n → n < 2 ^ (8 * (k + 1)) → k < fuel →
    natBytesLE fuel n = (List.range (k + 1)).map (fun i => n / 2 ^ (8 * i) % 2 ^ 8)
  | 0, n, fuel, hlo, hhi, hfuel => by
      obtain ⟨fuel, rfl⟩ : ∃ f, fuel = f + 1 := ⟨fuel - 1, by omega⟩
      rw [natBytesLE]
      have hn0 : ¬ n = 0 := by
        simp only [Nat.mul_zero, Nat.pow_zero] at hlo
        omega
      rw [if_neg hn0]
      have hdiv : n / 2 ^ 8 = 0 := by
        apply Nat.div_eq_of_lt
        simpa using hhi
      rw [hdiv]
      have hz : ∀ f, natBytesLE f 0 = [] := by
        intro f
        cases f with
        | zero => rfl
        | succ f => rw [natBytesLE, if_pos rfl]
      rw [hz]
      have h1 : List.range 1 = [0] := rfl
      rw [h1, List.map_cons, List.map_nil]
      norm_num
  | k + 1, n, fuel, hlo, hhi, hfuel => by
      obtain ⟨fuel, rfl⟩ : ∃ f, fuel = f + 1 := ⟨fuel - 1, by omega⟩
      rw [natBytesLE]
      have hn0 : ¬ n = 0 := by
        have : 0 < 2 ^ (8 * (k + 1)) := Nat.pos_pow_of_pos _ (by omega)
        omega
      rw [if_neg hn0]
      have hlo' : 2 ^ (8 * k) ≤ n / 2 ^ 8 := by
        rw [Nat.le_div_iff_mul_le (by norm_num)]
        calc 2 ^ (8 * k) * 2 ^ 8 = 2 ^ (8 * (k + 1)) := by rw [← Nat.pow_add]; ring_nf
          _ ≤ n := hlo
      have hhi' : n / 2 ^ 8 < 2 ^ (8 * (k + 1)) := by
        rw [Nat.div_lt_iff_lt_mul (by norm_num)]
        calc n < 2 ^ (8 * (k + 2)) := hhi
          _ = 2 ^ (8 * (k + 1)) * 2 ^ 8 := by rw [← Nat.pow_add]; ring_nf
      rw [natBytesLE_of_bounds k (n / 2 ^ 8) fuel hlo' hhi' (by omega)]
      have hrange : List.range (k + 1 + 1) = List.range 1 ++ (List.range (k + 1)).map (1 + ·) := by
        rw [← List.range_add, Nat.add_comm]
      rw [hrange, List.map_append, List.map_map]
      have hhead : (List.range 1).map (fun i => n / 2 ^ (8 * i) % 2 ^ 8) = [n % 2 ^ 8] := by
        have h1 : List.range 1 = [0] := rfl
        rw [h1, List.map_cons, List.map_nil]
        norm_num
      have htail : ((fun i => n / 2 ^ (8 * i) % 2 ^ 8) ∘ (1 + ·))
          = fun i => n / 2 ^ 8 / 2 ^ (8 * i) % 2 ^ 8 := by
        funext i
        simp only [Function.comp_apply, Nat.div_div_eq_div_mul, ← Nat.pow_add]
        rw [show 8 + 8 * i = 8 * (1 + i) from by ring]
      rw [hhead, htail]
      rfl

lemma bigUintToBytesLE_of_large {n : Nat} (hlo : 2 ^ 120 ≤ n) (hhi : n < 2 ^ 128) :
    bigUintToBytesLE n = num_to_16_le_bytes n := by
  have hn0 : ¬ n = 0 := by
    intro h0
    rw [h0] at hlo
    norm_num at hlo
  rw [bigUintToBytesLE, if_neg hn0]
  rw [natBytesLE_of_bounds 15 n 17 (by norm_num at hlo ⊢; omega) (by norm_num at hhi ⊢; omega)
    (by omega), num_to_16_le_bytes]

/-- Whenever the final tag value reaches `2^120` (so its minimal
serialization is 16 bytes), `poly1305_mac` returns it and agrees exactly
with the spec's reference fold: the `to_bytes_le` length slip is the
code's only divergence from spec §4.5. -/
theorem poly1305_mac_agrees_with_spec_fold (key data : List Nat)
    (h : 2 ^ 120 ≤
      (polyAccum (poly1305_r_clamp (leNum (key.take 16))) data
          ((data.length + 15) / 16)
        + leNum ((key.drop 16).take 16)) % 2 ^ 128) :
    poly1305_mac key data = some (poly1305_mac_spec key data) := by
  rw [poly1305_mac, poly1305_mac_spec]
  rw [Nat.and_pow_two_sub_one_eq_mod]
  rw [bigUintToBytesLE_of_large h (Nat.mod_lt _ (by norm_num))]
  rw [if_pos (by rw [num_to_16_le_bytes]; simp)]
  rw [polyAccum_eq_foldl, poly1305_r_clamp]

/-- Witness for the agreement theorem: the RFC 7539 §2.5.2 key and message
(`src/tests/poly.rs`), whose tag value exceeds `2^120`. -/
theorem poly1305_mac_agrees_with_spec_fold_witness :
    poly1305_mac
        [0x85, 0xd6, 0xbe, 0x78, 0x57, 0x55, 0x6d, 0x33,
         0x7f, 0x44, 0x52, 0xfe, 0x42, 0xd5, 0x06, 0xa8,
         0x01, 0x03, 0x80, 0x8a, 0xfb, 0x0d, 0xb2, 0xfd,
         0x4a, 0xbf, 0xf6, 0xaf, 0x41, 0x49, 0xf5, 0x1b]
        [0x43, 0x72, 0x79, 0x70, 0x74, 0x6f, 0x67, 0x72, 0x61, 0x70, 0x68,
         0x69, 0x63, 0x20, 0x46, 0x6f, 0x72, 0x75, 0x6d, 0x20, 0x52, 0x65,
         0x73, 0x65, 0x61, 0x72, 0x63, 0x68, 0x20, 0x47, 0x72, 0x6f, 0x75,
         0x70]
      = some (poly1305_mac_spec
        [0x85, 0xd6, 0xbe, 0x78, 0x57, 0x55, 0x6d, 0x33,
         0x7f, 0x44, 0x52, 0xfe, 0x42, 0xd5, 0x06, 0xa8,
         0x01, 0x03, 0x80, 0x8a, 0xfb, 0x0d, 0xb2, 0xfd,
         0x4a, 0xbf, 0xf6, 0xaf, 0x41, 0x49, 0xf5, 0x1b]
        [0x43, 0x72, 0x79, 0x70, 0x74, 0x6f, 0x67, 0x72, 0x61, 0x70, 0x68,
         0x69, 0x63, 0x20, 0x46, 0x6f, 0x72, 0x75, 0x6d, 0x20, 0x52, 0x65,
         0x73, 0x65, 0x61, 0x72, 0x63, 0x68, 0x20, 0x47, 0x72, 0x6f, 0x75,
         0x70]) :=
  poly1305_mac_agrees_with_spec_fold _ _ (by decide)

end Armadillo
